import Mathlib

/-!
Verification of the cache and backup utilities of the aeropostale_system
repository (`modules/database.py` — the `SmartCache`/`CacheManager` tagged
TTL cache — and `modules/backup.py` — the `BackupSystem` zip archiver).

The Python classes are shallowly embedded: `datetime.now()` timestamps
become an explicit `Time := Nat` argument threaded through every operation,
the insertion-ordered Python `dict` backing the cache becomes an
association list, and filesystem / database effects of the archiver become
explicit result records (lists of produced archive members, upsert calls,
copied files).
-/

namespace AeroSpec

/-- Timestamps (seconds, as produced by `datetime.now()`). -/
abbrev Time := Nat

/-! ## Cache entries (`CacheEntry` in `modules/database.py`) -/

/-- `CacheEntry.__init__`: key, value, creation time, TTL in seconds,
access counter, last-access time and tag list. -/
structure CacheEntry (α : Type) where
  key : String
  value : α
  created_at : Time
  ttl : Nat
  access_count : Nat
  last_accessed : Time
  tags : List String
deriving Repr, DecidableEq

/-- `CacheEntry(key, value, ttl)`: fresh entry created at `now` with
`access_count = 0`, `last_accessed = created_at` and no tags. -/
def CacheEntry.fresh {α : Type} (key : String) (value : α) (ttl : Nat) (now : Time) :
    CacheEntry α :=
  ⟨key, value, now, ttl, 0, now, []⟩

/-- `CacheEntry.is_expired`: `(datetime.now() - created_at).total_seconds() > ttl`. -/
def CacheEntry.is_expired {α : Type} (e : CacheEntry α) (now : Time) : Bool :=
  decide (e.ttl < now - e.created_at)

/-- `CacheEntry.has_tag`: `tag in self.tags`. -/
def CacheEntry.has_tag {α : Type} (e : CacheEntry α) (tag : String) : Bool :=
  decide (tag ∈ e.tags)

/-- The loop of `CacheEntry.add_tag` over a tag list: append each tag not
already present. -/
def addTags (tags : List String) : List String :=
  tags.foldl (fun acc t => if t ∈ acc then acc else acc ++ [t]) []

/-! ## The backing dict, modelled as an insertion-ordered association list -/

/-- `key in self.cache` / `self.cache[key]` lookup. -/
def lookupKey {α : Type} (l : List (String × CacheEntry α)) (k : String) :
    Option (CacheEntry α) :=
  match l with
  | [] => none
  | p :: rest => if p.1 = k then some p.2 else lookupKey rest k

/-- `del self.cache[key]` (keys of a Python dict are unique, so filtering
by key removes exactly the one binding). -/
def removeKey {α : Type} (l : List (String × CacheEntry α)) (k : String) :
    List (String × CacheEntry α) :=
  l.filter (fun p => decide (p.1 ≠ k))

/-- `self.cache[key] = entry`: overwrite in place if present (Python dicts
keep the original insertion position), else append at the end. -/
def setKey {α : Type} (l : List (String × CacheEntry α)) (k : String) (e : CacheEntry α) :
    List (String × CacheEntry α) :=
  match l with
  | [] => [(k, e)]
  | p :: rest => if p.1 = k then (k, e) :: rest else p :: setKey rest k e

/-! ## `SmartCache` -/

/-- The `self.stats` dict of `SmartCache`. -/
structure CacheStats where
  hits : Nat
  misses : Nat
  evictions : Nat
  expirations : Nat
  size : Nat
deriving Repr, DecidableEq

/-- `SmartCache` state: the backing dict, `max_size` and the counters. -/
structure SmartCache (α : Type) where
  cache : List (String × CacheEntry α)
  max_size : Nat
  stats : CacheStats
deriving Repr

/-- `SmartCache.__init__(max_size)`: empty dict, zeroed counters. -/
def SmartCache.empty (α : Type) (max_size : Nat) : SmartCache α :=
  ⟨[], max_size, ⟨0, 0, 0, 0, 0⟩⟩

/-- `SmartCache.get(key, default)`: on an expired entry, delete it and bump
`expirations`, `misses` and `size`; on a live entry bump `hits` and record
the access; on an absent key bump `misses`.  Returns the value paired with
the updated cache state. -/
def SmartCache.get {α : Type} (c : SmartCache α) (now : Time) (key : String)
    (default : α) : α × SmartCache α :=
  match lookupKey c.cache key with
  | some entry =>
    if entry.is_expired now then
      let cache' := removeKey c.cache key
      (default, ⟨cache', c.max_size,
        ⟨c.stats.hits, c.stats.misses + 1, c.stats.evictions,
         c.stats.expirations + 1, cache'.length⟩⟩)
    else
      let entry' := { entry with
        access_count := entry.access_count + 1, last_accessed := now }
      (entry.value, ⟨setKey c.cache key entry', c.max_size,
        ⟨c.stats.hits + 1, c.stats.misses, c.stats.evictions,
         c.stats.expirations, c.stats.size⟩⟩)
  | none =>
    (default, ⟨c.cache, c.max_size,
      ⟨c.stats.hits, c.stats.misses + 1, c.stats.evictions,
       c.stats.expirations, c.stats.size⟩⟩)

/-- The scan loop of `SmartCache._evict_oldest`: running
`(oldest_key, oldest_time)` pair, updated whenever a strictly older
`last_accessed` is seen. -/
def scanOldest {α : Type} (l : List (String × CacheEntry α)) (best : Option String)
    (bestTime : Time) : Option String × Time :=
  match l with
  | [] => (best, bestTime)
  | p :: rest =>
    if p.2.last_accessed < bestTime then scanOldest rest (some p.1) p.2.last_accessed
    else scanOldest rest best bestTime

/-- `SmartCache._evict_oldest`: starts the scan at `oldest_time =
datetime.now()`; afterwards `if oldest_key:` — Python truthiness, so a
`None` result *and* an empty-string key both skip the deletion. -/
def SmartCache.evictOldest {α : Type} (c : SmartCache α) (now : Time) : SmartCache α :=
  if c.cache.isEmpty then c
  else
    match (scanOldest c.cache none now).1 with
    | some k =>
      if k = "" then c
      else
        let cache' := removeKey c.cache k
        ⟨cache', c.max_size,
          ⟨c.stats.hits, c.stats.misses, c.stats.evictions + 1,
           c.stats.expirations, cache'.length⟩⟩
    | none => c

/-- `SmartCache.set(key, value, ttl, tags)`: evict one entry first when the
dict is at `max_size` and the key is new, then insert a fresh entry
carrying the (deduplicated) tags and refresh the `size` counter. -/
def SmartCache.set {α : Type} (c : SmartCache α) (now : Time) (key : String)
    (value : α) (ttl : Nat) (tags : List String) : SmartCache α :=
  let c1 := if c.max_size ≤ c.cache.length ∧ (lookupKey c.cache key).isNone = true
            then c.evictOldest now else c
  let entry : CacheEntry α := ⟨key, value, now, ttl, 0, now, addTags tags⟩
  let cache' := setKey c1.cache key entry
  ⟨cache', c1.max_size,
    ⟨c1.stats.hits, c1.stats.misses, c1.stats.evictions,
     c1.stats.expirations, cache'.length⟩⟩

/-- `SmartCache.invalidate(key)`: delete if present, refresh `size`,
return whether the key existed. -/
def SmartCache.invalidate {α : Type} (c : SmartCache α) (key : String) :
    Bool × SmartCache α :=
  match lookupKey c.cache key with
  | some _ =>
    let cache' := removeKey c.cache key
    (true, ⟨cache', c.max_size,
      ⟨c.stats.hits, c.stats.misses, c.stats.evictions,
       c.stats.expirations, cache'.length⟩⟩)
  | none => (false, c)

/-- `SmartCache.invalidate_by_tag(tag)`: collect the keys of the entries
carrying the tag, delete each, refresh `size`, return the count (the code
returns `len(keys_to_delete)` when non-empty and `0` otherwise). -/
def SmartCache.invalidateByTag {α : Type} (c : SmartCache α) (tag : String) :
    Nat × SmartCache α :=
  let ks := (c.cache.filter (fun p => p.2.has_tag tag)).map Prod.fst
  let cache' := ks.foldl removeKey c.cache
  (if ks.isEmpty then 0 else ks.length,
   ⟨cache', c.max_size,
     ⟨c.stats.hits, c.stats.misses, c.stats.evictions,
      c.stats.expirations, cache'.length⟩⟩)

/-- `SmartCache.invalidate_by_pattern(pattern)`: same shape as tag
invalidation; the `fnmatch.fnmatch` glob matcher is abstracted as a
boolean predicate on keys. -/
def SmartCache.invalidateByGlob {α : Type} (c : SmartCache α)
    (globMatch : String → Bool) : Nat × SmartCache α :=
  let ks := (c.cache.filter (fun p => globMatch p.1)).map Prod.fst
  let cache' := ks.foldl removeKey c.cache
  (if ks.isEmpty then 0 else ks.length,
   ⟨cache', c.max_size,
     ⟨c.stats.hits, c.stats.misses, c.stats.evictions,
      c.stats.expirations, cache'.length⟩⟩)

/-- `SmartCache.clear()`: drop all entries, zero the `size` counter, keep
every other counter. -/
def SmartCache.clear {α : Type} (c : SmartCache α) : SmartCache α :=
  ⟨[], c.max_size,
    ⟨c.stats.hits, c.stats.misses, c.stats.evictions, c.stats.expirations, 0⟩⟩

/-- `SmartCache._cleanup_expired()` (the background sweep body): delete
every expired entry, bump `expirations` once per deletion, and refresh
`size` only when something was deleted. -/
def SmartCache.cleanupExpired {α : Type} (c : SmartCache α) (now : Time) :
    SmartCache α :=
  let ks := (c.cache.filter (fun p => p.2.is_expired now)).map Prod.fst
  let cache' := ks.foldl removeKey c.cache
  ⟨cache', c.max_size,
    ⟨c.stats.hits, c.stats.misses, c.stats.evictions,
     c.stats.expirations + ks.length,
     if ks.isEmpty then c.stats.size else cache'.length⟩⟩

/-- The float `hit_rate` computed inside `SmartCache.get_stats`
(`hits / (hits + misses) * 100` when any access happened, else `0`),
modelled over `ℚ`. -/
def hitRateQ (s : CacheStats) : ℚ :=
  if 0 < s.hits + s.misses then (s.hits : ℚ) / ((s.hits : ℚ) + (s.misses : ℚ)) * 100
  else 0

/-- The `efficiency` label of `get_stats`:
`"alta" if hit_rate > 80 else "media" if hit_rate > 50 else "baja"`. -/
def efficiencyLabel (s : CacheStats) : String :=
  if 80 < hitRateQ s then "alta" else if 50 < hitRateQ s then "media" else "baja"

/-! ## `CacheManager.memoize` -/

/-- One call of the wrapper produced by `CacheManager.memoize`.  Python
values live in `Option β`, with `none` standing for Python `None`: the
wrapper calls `get` with its default of `None`, and only short-circuits
when `cached_result is not None`; otherwise it invokes the wrapped
function and stores the result with the configured TTL and tags.  The
md5-derived cache key is passed in explicitly. -/
def memoizeCall {β : Type} (cache : SmartCache (Option β)) (now : Time)
    (cacheKey : String) (f : Unit → Option β) (ttl : Nat) (tags : List String) :
    Option β × SmartCache (Option β) :=
  let r := cache.get now cacheKey none
  match r.1 with
  | some v => (some v, r.2)
  | none =>
    let result := f ()
    (result, r.2.set now cacheKey result ttl tags)

/-! ## Backup archiver (`modules/backup.py`) -/

/-- An opaque serialized database record. -/
abbrev Row := String

/-- The data-access layer seen by the archiver: named tables with their
rows. -/
structure Database where
  tables : List (String × List Row)
deriving Repr

/-- Row lookup for a named table. -/
def Database.rowsOf (db : Database) (t : String) : List Row :=
  match db.tables.find? (fun p => p.1 == t) with
  | some p => p.2
  | none => []

/-- `db.orm.execute('select', table, limit=10000)` inside
`_backup_database`. -/
def Database.fetch (db : Database) (t : String) (lim : Nat) : List Row :=
  (db.rowsOf t).take lim

/-- The fixed table list of `BackupSystem._backup_database`. -/
def backupTables : List String :=
  ["daily_kpis", "trabajadores", "guide_stores",
   "guide_senders", "guide_logs", "distribuciones_semanales"]

/-- The files `_backup_database` writes under `database/` in the working
directory: one `<table>.json` per table whose fetched data is non-empty
(`if data:`), plus `schema_info.json`. -/
def databaseBackupFiles (db : Database) : List String :=
  (backupTables.filterMap fun t =>
    if (db.fetch t 10000).isEmpty then none
    else some ("database/" ++ t ++ ".json"))
  ++ ["database/schema_info.json"]

/-- The metadata dict built by `BackupSystem._create_metadata` (the fields
the claims mention). -/
structure BackupMeta where
  type : String
  description : String
  size_bytes : Nat
deriving Repr, DecidableEq

/-- `BackupSystem._create_metadata(backup_type, description)`. -/
def createMetadata (backup_type description : String) : BackupMeta :=
  ⟨backup_type, description, 0⟩

/-- `BackupSystem._compress_backup`: the zip receives every file found in
the working directory; afterwards, only if a `metadata.json` file exists in
the working directory is the (size-updated) metadata appended as a zip
member. -/
def compressBackup (tempFiles : List String) : List String :=
  if "metadata.json" ∈ tempFiles then tempFiles ++ ["metadata.json"]
  else tempFiles

/-- `BackupSystem.create_backup(backup_type, description)`: build the
metadata dict, populate the working directory according to the type
(`full` and `incremental` additionally copy configs / `data_wilo` / logs,
summarized here as `hostFiles`), compress, and return the metadata
together with the member list of the produced zip.  An unsupported type
raises `ValueError`, caught by the top-level handler which returns `None`.
None of the populate steps ever writes a `metadata.json` file into the
working directory. -/
def createBackup (db : Database) (hostFiles : List String)
    (backup_type description : String) : Option (BackupMeta × List String) :=
  let md := createMetadata backup_type description
  if backup_type = "full" then
    some (md, compressBackup (databaseBackupFiles db ++ hostFiles))
  else if backup_type = "database_only" then
    some (md, compressBackup (databaseBackupFiles db))
  else if backup_type = "incremental" then
    some ({ md with type := "incremental" },
          compressBackup (databaseBackupFiles db ++ hostFiles))
  else none

/-! ### Restore (`BackupSystem.restore_backup`) -/

/-- A backup archive as it looks once extracted to the temporary
directory: whether a top-level `metadata.json` exists, the listing of the
`database/` directory (file name paired with the parsed row list), and the
listing of the `config/` directory. -/
structure ExtractedBackup where
  hasMetadataFile : Bool
  databaseFiles : List (String × List Row)
  configFiles : List String
deriving Repr, DecidableEq

/-- Observable outcome of one `restore_backup` call: the returned success
flag, whether the temporary extraction directory was removed before
returning, the `bulk_upsert(table, data)` calls issued, and the config
files copied back. -/
structure RestoreOutcome where
  success : Bool
  tempRemoved : Bool
  upserts : List (String × List Row)
  copiedConfigs : List String
deriving Repr, DecidableEq

/-- `Path.stem` for a `*.json` file name. -/
def jsonStem (s : String) : String := s.dropRight 5

/-- `BackupSystem._restore_database`: for every `database/*.json` member
except `schema_info.json` whose parsed data is non-empty (`if data:`),
issue one `bulk_upsert(table, data)`. -/
def restoreDatabaseActions (ex : ExtractedBackup) : List (String × List Row) :=
  ex.databaseFiles.filterMap fun p =>
    if ¬ p.1.endsWith ".json" then none
    else if p.1 = "schema_info.json" then none
    else if p.2.isEmpty then none
    else some (jsonStem p.1, p.2)

/-- `BackupSystem._restore_configs`: copy every file found under the
archive's `config/` directory (`config_dir.glob("*")`). -/
def restoreConfigActions (ex : ExtractedBackup) : List String :=
  ex.configFiles

/-- `BackupSystem.restore_backup(backup_file, restore_type)`: extract to
the temp directory; when `metadata.json` is missing, log and `return
False` — this early return performs no `shutil.rmtree` on the temp
directory.  Otherwise restore the database for `full`/`database_only`,
restore configs for `full`/`configs_only`, remove the temp directory and
return `True`. -/
def restoreBackup (ex : ExtractedBackup) (restore_type : String) : RestoreOutcome :=
  if ex.hasMetadataFile = false then
    ⟨false, false, [], []⟩
  else
    let ups := if restore_type = "full" ∨ restore_type = "database_only"
               then restoreDatabaseActions ex else []
    let cps := if restore_type = "full" ∨ restore_type = "configs_only"
               then restoreConfigActions ex else []
    ⟨true, true, ups, cps⟩

/-! ### Retention (`BackupSystem._clean_old_backups`) -/

/-- One `backup_*.zip` file in the backup directory. -/
structure BackupFile where
  name : String
  mtime : Nat
deriving Repr, DecidableEq

/-- Insertion step of a sort of the directory listing by
`st_mtime` ascending. -/
def insertByMtime (f : BackupFile) : List BackupFile → List BackupFile
  | [] => [f]
  | g :: rest =>
    if f.mtime < g.mtime then f :: g :: rest else g :: insertByMtime f rest

/-- `backup_files.sort(key=lambda x: x.stat().st_mtime)`. -/
def sortByMtime : List BackupFile → List BackupFile
  | [] => []
  | f :: rest => insertByMtime f (sortByMtime rest)

/-- `BackupSystem._clean_old_backups`: nothing happens while the count is
within `max_backups`; beyond it, the listing is sorted by modification
time and the first `len - max_backups` files (the oldest) are unlinked. -/
def cleanOldBackups (files : List BackupFile) (max_backups : Nat) :
    List BackupFile :=
  if files.length ≤ max_backups then files
  else
    let sorted := sortByMtime files
    let toDelete := sorted.take (files.length - max_backups)
    files.filter (fun f => decide (f ∉ toDelete))

/-! ## Operation sequences over one `SmartCache` -/

/-- One public operation on a `SmartCache` (the background sweep body
included).  Timed operations carry the clock value at which they run. -/
inductive CacheOp (α : Type) where
  | get (now : Time) (key : String) (default : α)
  | set (now : Time) (key : String) (value : α) (ttl : Nat) (tags : List String)
  | invalidate (key : String)
  | invalidateByTag (tag : String)
  | invalidateByGlob (globMatch : String → Bool)
  | cleanupExpired (now : Time)
  | clear

/-- Apply one operation (dropping returned values). -/
def applyOp {α : Type} (c : SmartCache α) : CacheOp α → SmartCache α
  | .get now key default => (c.get now key default).2
  | .set now key v ttl tags => c.set now key v ttl tags
  | .invalidate key => (c.invalidate key).2
  | .invalidateByTag tag => (c.invalidateByTag tag).2
  | .invalidateByGlob m => (c.invalidateByGlob m).2
  | .cleanupExpired now => c.cleanupExpired now
  | .clear => c.clear

/-- Run a sequence of operations. -/
def runOps {α : Type} (c : SmartCache α) (ops : List (CacheOp α)) : SmartCache α :=
  ops.foldl applyOp c

/-- Whether an operation is a `get` (for counting accesses). -/
def CacheOp.isGet {α : Type} : CacheOp α → Bool
  | .get _ _ _ => true
  | _ => false

/-- Number of `get` operations in a sequence. -/
def countGets {α : Type} (ops : List (CacheOp α)) : Nat :=
  (ops.filter CacheOp.isGet).length

/-- Clock discipline of one operation at lower time bound `t`: a timed
operation must not run before `t`, and a `set` must use a non-empty key
(Python truthiness in `_evict_oldest` skips an empty-string victim). -/
def opOK {α : Type} (t : Time) : CacheOp α → Prop
  | .get now _ _ => t ≤ now
  | .set now key _ _ _ => t ≤ now ∧ key ≠ ""
  | .cleanupExpired now => t ≤ now
  | _ => True

/-- Lower time bound for the operations after `op`. -/
def opNext {α : Type} (t : Time) : CacheOp α → Time
  | .get now _ _ => now + 1
  | .set now _ _ _ _ => now + 1
  | .cleanupExpired now => now + 1
  | _ => t

/-- A well-clocked operation sequence starting at lower bound `t`:
operations run at nondecreasing times strictly separating successive
timed operations, and `set` keys are non-empty. -/
inductive ValidOps {α : Type} : Time → List (CacheOp α) → Prop
  | nil {t : Time} : ValidOps t []
  | cons {t : Time} {op : CacheOp α} {ops : List (CacheOp α)} :
      opOK t op → ValidOps (opNext t op) ops → ValidOps t (op :: ops)

/-- State invariant at lower time bound `t`: every entry was last accessed
strictly before `t`, no key is the empty string, and keys are unique. -/
def CacheInv {α : Type} (c : SmartCache α) (t : Time) : Prop :=
  (∀ p ∈ c.cache, p.2.last_accessed < t) ∧
  (∀ p ∈ c.cache, p.1 ≠ "") ∧
  (c.cache.map Prod.fst).Nodup

/-! ## Association-list lemmas -/

theorem lookupKey_setKey_self {α : Type} (l : List (String × CacheEntry α))
    (k : String) (e : CacheEntry α) : lookupKey (setKey l k e) k = some e := by
  induction l with
  | nil => simp [setKey, lookupKey]
  | cons p rest ih =>
    by_cases h : p.1 = k
    · simp [setKey, h, lookupKey]
    · simp [setKey, h, lookupKey, ih]

theorem lookupKey_removeKey_self {α : Type} (l : List (String × CacheEntry α))
    (k : String) : lookupKey (removeKey l k) k = none := by
  induction l with
  | nil => simp [removeKey, lookupKey]
  | cons p rest ih =>
    by_cases h : p.1 = k
    · simpa [removeKey, h] using ih
    · simpa [removeKey, h, lookupKey] using ih

theorem lookupKey_filter_none {α : Type} (l : List (String × CacheEntry α))
    (k : String) (q : String × CacheEntry α → Bool)
    (h : lookupKey l k = none) : lookupKey (l.filter q) k = none := by
  induction l with
  | nil => simp [lookupKey]
  | cons p rest ih =>
    simp only [lookupKey] at h
    by_cases hp : p.1 = k
    · simp [hp] at h
    · rw [List.filter_cons]
      by_cases hq : q p
      · simp only [hq, if_true, lookupKey, hp, if_false]
        exact ih (by simpa [hp] using h)
      · simp only [hq]
        exact ih (by simpa [hp] using h)

theorem setKey_of_lookup_none {α : Type} (l : List (String × CacheEntry α))
    (k : String) (e : CacheEntry α) (h : lookupKey l k = none) :
    setKey l k e = l ++ [(k, e)] := by
  induction l with
  | nil => simp [setKey]
  | cons p rest ih =>
    simp only [lookupKey] at h
    by_cases hp : p.1 = k
    · simp [hp] at h
    · simp only [setKey, hp, if_false, List.cons_append, List.cons.injEq, true_and]
      exact ih (by simpa [hp] using h)

theorem mem_of_lookupKey_some {α : Type} {l : List (String × CacheEntry α)}
    {k : String} {e : CacheEntry α} (h : lookupKey l k = some e) : (k, e) ∈ l := by
  induction l with
  | nil => simp [lookupKey] at h
  | cons p rest ih =>
    simp only [lookupKey] at h
    by_cases hp : p.1 = k
    · simp only [hp, if_true, Option.some.injEq] at h
      cases p with
      | mk a b =>
        simp only [] at hp h
        subst hp
        subst h
        exact List.mem_cons_self _ _
    · simp only [hp, if_false] at h
      exact List.mem_cons_of_mem _ (ih h)

theorem lookupKey_none_of_not_mem {α : Type} {l : List (String × CacheEntry α)}
    {k : String} (h : k ∉ l.map Prod.fst) : lookupKey l k = none := by
  induction l with
  | nil => rfl
  | cons p rest ih =>
    simp only [List.map_cons, List.mem_cons] at h
    push_neg at h
    simp only [lookupKey, Ne.symm h.1, if_false]
    exact ih h.2

theorem lookupKey_set_self {α : Type} (c : SmartCache α) (now : Time) (key : String)
    (v : α) (ttl : Nat) (tags : List String) :
    lookupKey (c.set now key v ttl tags).cache key
      = some ⟨key, v, now, ttl, 0, now, addTags tags⟩ := by
  simp only [SmartCache.set]
  exact lookupKey_setKey_self _ _ _

theorem foldl_removeKey {α : Type} (ks : List String)
    (l : List (String × CacheEntry α)) :
    ks.foldl removeKey l = l.filter (fun p => decide (p.1 ∉ ks)) := by
  induction ks generalizing l with
  | nil =>
    simp only [List.foldl_nil, List.not_mem_nil, not_false_eq_true, decide_True,
      List.filter_true]
  | cons k ks ih =>
    simp only [List.foldl_cons]
    rw [ih]
    simp only [removeKey, List.filter_filter]
    apply List.filter_congr
    intro p _
    by_cases h1 : p.1 = k <;> by_cases h2 : p.1 ∈ ks <;> simp [h1, h2]

/-- In a list with unique keys, two members sharing a key are equal. -/
theorem eq_of_fst_eq_of_nodupKeys {α : Type} {l : List (String × CacheEntry α)}
    (hnd : (l.map Prod.fst).Nodup) {p q : String × CacheEntry α}
    (hp : p ∈ l) (hq : q ∈ l) (h : p.1 = q.1) : p = q :=
  List.inj_on_of_nodup_map hnd hp hq h

/-- **C5** (`modules/database.py` `SmartCache.get` / `CacheEntry.is_expired`):
after `set(key, v, ttl)` at time `t0`, a `get` at `t1` with age `t1 - t0`
at most `ttl` returns `v`; a `get` at `t2` with age beyond `ttl` returns
the provided default, removes the entry, and increments the miss and
expiration counters. -/
theorem get_after_set_within_ttl_and_after_expiry {α : Type} (c : SmartCache α)
    (t0 t1 t2 : Time) (key : String) (v d1 d2 : α) (ttl : Nat)
    (tags : List String) (h1 : t1 - t0 ≤ ttl) (h2 : ttl < t2 - t0) :
    (((c.set t0 key v ttl tags).get t1 key d1).1 = v) ∧
    (((c.set t0 key v ttl tags).get t2 key d2).1 = d2 ∧
     lookupKey ((c.set t0 key v ttl tags).get t2 key d2).2.cache key = none ∧
     ((c.set t0 key v ttl tags).get t2 key d2).2.stats.misses
        = (c.set t0 key v ttl tags).stats.misses + 1 ∧
     ((c.set t0 key v ttl tags).get t2 key d2).2.stats.expirations
        = (c.set t0 key v ttl tags).stats.expirations + 1) := by
  have hl := lookupKey_set_self c t0 key v ttl tags
  have hexp1 : (CacheEntry.mk key v t0 ttl 0 t0 (addTags tags)).is_expired t1 = false := by
    simp only [CacheEntry.is_expired, decide_eq_false_iff_not, not_lt]
    exact h1
  have hexp2 : (CacheEntry.mk key v t0 ttl 0 t0 (addTags tags)).is_expired t2 = true := by
    simp only [CacheEntry.is_expired, decide_eq_true_eq]
    exact h2
  refine ⟨?_, ?_, ?_, ?_, ?_⟩ <;>
    simp [SmartCache.get, hl, hexp1, hexp2, lookupKey_removeKey_self]

/-- Witness for the C5 theorem at a concrete instance. -/
theorem get_after_set_within_ttl_and_after_expiry_witness :
    (3 - 0 ≤ 5 ∧ 5 < 10 - 0) ∧
    ((((SmartCache.empty Nat 10).set 0 "k" 7 5 []).get 3 "k" 0).1 = 7 ∧
     ((((SmartCache.empty Nat 10).set 0 "k" 7 5 []).get 10 "k" 0).1 = 0 ∧
      lookupKey ((((SmartCache.empty Nat 10).set 0 "k" 7 5 []).get 10 "k" 0)).2.cache "k"
        = none ∧
      ((((SmartCache.empty Nat 10).set 0 "k" 7 5 []).get 10 "k" 0)).2.stats.misses
        = ((SmartCache.empty Nat 10).set 0 "k" 7 5 []).stats.misses + 1 ∧
      ((((SmartCache.empty Nat 10).set 0 "k" 7 5 []).get 10 "k" 0)).2.stats.expirations
        = ((SmartCache.empty Nat 10).set 0 "k" 7 5 []).stats.expirations + 1)) :=
  ⟨⟨by decide, by decide⟩,
   get_after_set_within_ttl_and_after_expiry (SmartCache.empty Nat 10) 0 3 10 "k" 7 0 0 5
     [] (by decide) (by decide)⟩

/-- **C6** (`SmartCache.invalidate_by_tag`): exactly the entries carrying
the tag are removed, every other entry is left in place unchanged, and
the number of removed entries is returned. -/
theorem invalidateByTag_removes_exactly_tagged {α : Type} (c : SmartCache α)
    (tag : String) (hnd : (c.cache.map Prod.fst).Nodup) :
    (c.invalidateByTag tag).2.cache
      = c.cache.filter (fun p => ! p.2.has_tag tag) ∧
    (c.invalidateByTag tag).1
      = (c.cache.filter (fun p => p.2.has_tag tag)).length := by
  constructor
  · simp only [SmartCache.invalidateByTag]
    rw [foldl_removeKey]
    apply List.filter_congr
    intro p hp
    have : (p.1 ∈ (c.cache.filter (fun q => q.2.has_tag tag)).map Prod.fst)
        ↔ p.2.has_tag tag = true := by
      constructor
      · intro hmem
        rcases List.mem_map.mp hmem with ⟨q, hq, hfst⟩
        rcases List.mem_filter.mp hq with ⟨hqmem, hqtag⟩
        have : q = p := eq_of_fst_eq_of_nodupKeys hnd hqmem hp hfst
        rw [← this]
        exact hqtag
      · intro htag
        exact List.mem_map.mpr ⟨p, List.mem_filter.mpr ⟨hp, htag⟩, rfl⟩
    by_cases h : p.2.has_tag tag = true
    · simp [this, h]
    · simp only [Bool.not_eq_true] at h
      simp [h, this]
  · simp only [SmartCache.invalidateByTag, List.isEmpty_iff, List.map_eq_nil_iff]
    by_cases h : c.cache.filter (fun q => q.2.has_tag tag) = []
    · simp [h]
    · simp [h, List.length_map]

/-- Witness for the C6 theorem: a concrete cache with one tagged and one
untagged entry. -/
theorem invalidateByTag_removes_exactly_tagged_witness :
    ((([("a", CacheEntry.mk "a" 1 0 300 0 0 ["grp"]),
        ("b", CacheEntry.mk "b" 2 0 300 0 0 [])].map Prod.fst).Nodup) ∧
     ((SmartCache.mk
        [("a", CacheEntry.mk "a" 1 0 300 0 0 ["grp"]),
         ("b", CacheEntry.mk "b" 2 0 300 0 0 [])] 10 ⟨0,0,0,0,2⟩).invalidateByTag
           "grp").2.cache
       = [("a", CacheEntry.mk "a" 1 0 300 0 0 ["grp"]),
          ("b", CacheEntry.mk "b" 2 0 300 0 0 [])].filter
           (fun p => ! p.2.has_tag "grp") ∧
     ((SmartCache.mk
        [("a", CacheEntry.mk "a" 1 0 300 0 0 ["grp"]),
         ("b", CacheEntry.mk "b" 2 0 300 0 0 [])] 10 ⟨0,0,0,0,2⟩).invalidateByTag
           "grp").1
       = ([("a", CacheEntry.mk "a" 1 0 300 0 0 ["grp"]),
           ("b", CacheEntry.mk "b" 2 0 300 0 0 [])].filter
            (fun p => p.2.has_tag "grp")).length) :=
  ⟨by decide,
   (invalidateByTag_removes_exactly_tagged _ "grp" (by decide)).1,
   (invalidateByTag_removes_exactly_tagged _ "grp" (by decide)).2⟩

/-- **C8** (`BackupSystem.restore_backup` with `restore_type="configs_only"`):
no database upsert is issued, and the copied files are exactly those found
under the archive's `config/` directory (nothing when the restore fails
for missing metadata). -/
theorem restore_configs_only_no_upsert (ex : ExtractedBackup) :
    (restoreBackup ex "configs_only").upserts = [] ∧
    (restoreBackup ex "configs_only").copiedConfigs
      = (if ex.hasMetadataFile then restoreConfigActions ex else []) := by
  by_cases h : ex.hasMetadataFile
  · simp [restoreBackup, h]
  · simp only [Bool.not_eq_true] at h
    simp [restoreBackup, h]

/-- **C10** (`restore_backup` with an unrecognized `restore_type`): both
restore branches are skipped, the temp directory is removed, and `True`
is returned. -/
theorem restore_unknown_type_succeeds_restoring_nothing (ex : ExtractedBackup)
    (rt : String) (h1 : rt ≠ "full") (h2 : rt ≠ "database_only")
    (h3 : rt ≠ "configs_only") (hm : ex.hasMetadataFile = true) :
    restoreBackup ex rt = ⟨true, true, [], []⟩ := by
  simp [restoreBackup, hm, h1, h2, h3]

/-- Witness for the C10 theorem at a concrete archive and restore type. -/
theorem restore_unknown_type_succeeds_restoring_nothing_witness :
    restoreBackup ⟨true, [("daily_kpis.json", ["r1"])], ["config.json"]⟩ "bogus"
      = ⟨true, true, [], []⟩ :=
  restore_unknown_type_succeeds_restoring_nothing _ "bogus"
    (by decide) (by decide) (by decide) rfl

/-- **C2, counterexample**: restoring an archive without `metadata.json`
returns `False`, but the early `return False` in `restore_backup` skips
the `shutil.rmtree` — the temporary extraction directory is left behind,
contradicting the claim that it is removed in every case. -/
theorem restore_missing_metadata_leaves_temp_dir :
    (restoreBackup ⟨false, [], []⟩ "full").success = false ∧
    (restoreBackup ⟨false, [], []⟩ "full").tempRemoved = false := by
  decide

/-- **C2, amended** (`BackupSystem.restore_backup`): a missing
`metadata.json` makes the call return `False` with the temporary
extraction directory left in place; when metadata is present the restore
succeeds and the temporary directory is removed before returning. -/
theorem restore_metadata_gate_and_cleanup (ex : ExtractedBackup) (rt : String) :
    (ex.hasMetadataFile = false →
      (restoreBackup ex rt).success = false ∧
      (restoreBackup ex rt).tempRemoved = false) ∧
    (ex.hasMetadataFile = true →
      (restoreBackup ex rt).success = true ∧
      (restoreBackup ex rt).tempRemoved = true) := by
  constructor <;> intro h <;> simp [restoreBackup, h]

/-- Witness for the amended C2 theorem at concrete archives. -/
theorem restore_metadata_gate_and_cleanup_witness :
    ((restoreBackup ⟨true, [], ["config.json"]⟩ "full").success = true ∧
     (restoreBackup ⟨true, [], ["config.json"]⟩ "full").tempRemoved = true) ∧
    ((restoreBackup ⟨false, [], []⟩ "database_only").success = false ∧
     (restoreBackup ⟨false, [], []⟩ "database_only").tempRemoved = false) :=
  ⟨(restore_metadata_gate_and_cleanup ⟨true, [], ["config.json"]⟩ "full").2 rfl,
   (restore_metadata_gate_and_cleanup ⟨false, [], []⟩ "database_only").1 rfl⟩

/-- **C3, counterexample**: the wrapper built by `CacheManager.memoize`
tests `if cached_result is not None`, so an unexpired cache entry whose
stored value is `None` is treated as a miss: the wrapped computation runs
again and its (different) result is returned instead of the stored value. -/
theorem memoize_recomputes_on_stored_none :
    lookupKey (SmartCache.mk
        [("k", CacheEntry.mk "k" (none : Option Nat) 0 300 0 0 [])]
        500 ⟨0, 0, 0, 0, 1⟩).cache "k"
      = some (CacheEntry.mk "k" (none : Option Nat) 0 300 0 0 []) ∧
    (CacheEntry.mk "k" (none : Option Nat) 0 300 0 0 []).is_expired 3 = false ∧
    (memoizeCall (SmartCache.mk
        [("k", CacheEntry.mk "k" (none : Option Nat) 0 300 0 0 [])]
        500 ⟨0, 0, 0, 0, 1⟩) 3 "k" (fun _ => some 42) 300 []).1 = some 42 := by
  refine ⟨rfl, rfl, rfl⟩

/-- **C3, amended** (`CacheManager.memoize` wrapper): when an unexpired
entry for the derived key holds a value other than `None`, any call
returns that stored value without consulting the wrapped computation (the
result does not depend on `f`); whenever `get` yields `None` — key absent,
entry expired, or the stored value itself `None` — the computation is
invoked and its result stored under the configured TTL and tags, then
returned. -/
theorem memoize_hit_returns_stored_miss_recomputes {β : Type}
    (c : SmartCache (Option β)) (now : Time) (key : String) (ttl : Nat)
    (tags : List String) :
    (∀ e v, lookupKey c.cache key = some e → e.is_expired now = false →
      e.value = some v → ∀ f : Unit → Option β,
        memoizeCall c now key f ttl tags = (some v, (c.get now key none).2)) ∧
    (∀ f : Unit → Option β, (c.get now key none).1 = none →
        memoizeCall c now key f ttl tags
          = (f (), (c.get now key none).2.set now key (f ()) ttl tags) ∧
        lookupKey (memoizeCall c now key f ttl tags).2.cache key
          = some ⟨key, f (), now, ttl, 0, now, addTags tags⟩) := by
  constructor
  · intro e v hl hexp hv f
    have hget1 : (c.get now key none).1 = some v := by
      simp [SmartCache.get, hl, hexp, hv]
    simp [memoizeCall, hget1]
  · intro f hnone
    refine ⟨by simp [memoizeCall, hnone], ?_⟩
    simp [memoizeCall, hnone, lookupKey_set_self]

/-- Witness for the amended C3 theorem: a hit on a stored `some 5`
ignores the computation, and a call on an empty cache invokes it. -/
theorem memoize_hit_returns_stored_miss_recomputes_witness :
    (memoizeCall (SmartCache.mk
        [("k", CacheEntry.mk "k" (some 5) 0 300 0 0 [])] 500 ⟨0, 0, 0, 0, 1⟩)
        3 "k" (fun _ => some 99) 300 []
      = (some 5,
         ((SmartCache.mk [("k", CacheEntry.mk "k" (some 5) 0 300 0 0 [])]
            500 ⟨0, 0, 0, 0, 1⟩).get 3 "k" none).2)) ∧
    (memoizeCall (SmartCache.empty (Option Nat) 500) 3 "k" (fun _ => some 7) 300 []
      = (some 7,
         ((SmartCache.empty (Option Nat) 500).get 3 "k" none).2.set 3 "k" (some 7)
           300 [])) :=
  ⟨(memoize_hit_returns_stored_miss_recomputes
      (SmartCache.mk [("k", CacheEntry.mk "k" (some 5) 0 300 0 0 [])]
        500 ⟨0, 0, 0, 0, 1⟩) 3 "k" 300 []).1
     (CacheEntry.mk "k" (some 5) 0 300 0 0 []) 5 rfl rfl rfl (fun _ => some 99),
   ((memoize_hit_returns_stored_miss_recomputes
      (SmartCache.empty (Option Nat) 500) 3 "k" 300 []).2
     (fun _ => some 7) rfl).1⟩

/-- No populate step of `create_backup` writes a top-level `metadata.json`
into the working directory: every database member lives under
`database/`. -/
theorem metadata_not_in_databaseBackupFiles (db : Database) :
    "metadata.json" ∉ databaseBackupFiles db := by
  intro hmem
  simp only [databaseBackupFiles, List.mem_append, List.mem_filterMap] at hmem
  rcases hmem with ⟨t, _, hsome⟩ | hlast
  · by_cases hE : (db.fetch t 10000).isEmpty
    · simp [hE] at hsome
    · simp only [Bool.not_eq_true] at hE
      simp only [hE, Bool.false_eq_true, if_false, Option.some.injEq] at hsome
      have hlen : ("database/" ++ t ++ ".json").length = "metadata.json".length := by
        rw [hsome]
      rw [String.length_append, String.length_append] at hlen
      have h9 : "database/".length = 9 := rfl
      have h5 : ".json".length = 5 := rfl
      have h13 : "metadata.json".length = 13 := rfl
      omega
  · exact absurd hlast (by decide)

/-- **C1** (`BackupSystem.create_backup` / `_compress_backup`): for
`create_backup("database_only", d)` the metadata dict carries the right
`type` and `description`, but the produced zip holds only the `database/`
members — the metadata dict is never written to the working directory, so
the `metadata.json` embed branch of `_compress_backup` never fires and the
archive has no `metadata.json` member. -/
theorem createBackup_database_only_archive_lacks_metadata (db : Database)
    (hostFiles : List String) (d : String) :
    createBackup db hostFiles "database_only" d
      = some (⟨"database_only", d, 0⟩, databaseBackupFiles db) ∧
    "metadata.json" ∉ databaseBackupFiles db := by
  refine ⟨?_, metadata_not_in_databaseBackupFiles db⟩
  simp [createBackup, createMetadata, compressBackup,
    metadata_not_in_databaseBackupFiles db]

theorem insertByMtime_perm (f : BackupFile) (l : List BackupFile) :
    List.Perm (insertByMtime f l) (f :: l) := by
  induction l with
  | nil => exact List.Perm.refl _
  | cons g rest ih =>
    by_cases h : f.mtime < g.mtime
    · simp only [insertByMtime, h, if_true]
      exact List.Perm.refl _
    · simp only [insertByMtime, h, if_false]
      exact (ih.cons g).trans (List.Perm.swap f g rest)

theorem sortByMtime_perm (l : List BackupFile) : List.Perm (sortByMtime l) l := by
  induction l with
  | nil => exact List.Perm.refl _
  | cons f rest ih =>
    exact (insertByMtime_perm f (sortByMtime rest)).trans (ih.cons f)

theorem insertByMtime_pairwise (f : BackupFile) (l : List BackupFile)
    (h : l.Pairwise (fun a b => a.mtime ≤ b.mtime)) :
    (insertByMtime f l).Pairwise (fun a b => a.mtime ≤ b.mtime) := by
  induction l with
  | nil => simp [insertByMtime]
  | cons g rest ih =>
    rcases List.pairwise_cons.mp h with ⟨hg, hrest⟩
    by_cases hlt : f.mtime < g.mtime
    · simp only [insertByMtime, hlt, if_true]
      refine List.pairwise_cons.mpr ⟨?_, h⟩
      intro b hb
      rcases List.mem_cons.mp hb with hb | hb
      · exact hb ▸ Nat.le_of_lt hlt
      · exact Nat.le_trans (Nat.le_of_lt hlt) (hg b hb)
    · simp only [insertByMtime, hlt, if_false]
      refine List.pairwise_cons.mpr ⟨?_, ih hrest⟩
      intro b hb
      have hb' := (insertByMtime_perm f rest).mem_iff.mp hb
      rcases List.mem_cons.mp hb' with hb' | hb'
      · exact hb' ▸ Nat.le_of_not_lt hlt
      · exact hg b hb'

theorem sortByMtime_pairwise (l : List BackupFile) :
    (sortByMtime l).Pairwise (fun a b => a.mtime ≤ b.mtime) := by
  induction l with
  | nil => simp [sortByMtime]
  | cons f rest ih => exact insertByMtime_pairwise f _ ih

/-- **C7** (`BackupSystem._clean_old_backups`): while the archive count is
within `max_backups` nothing is deleted; beyond it, the oldest archives by
modification time are unlinked so that exactly `max_backups` remain, and
every deleted archive is at least as old as every survivor. -/
theorem cleanOldBackups_keeps_newest_max (files : List BackupFile) (maxB : Nat)
    (hnd : (files.map BackupFile.name).Nodup) :
    (files.length ≤ maxB → cleanOldBackups files maxB = files) ∧
    (maxB < files.length →
      (cleanOldBackups files maxB).length = maxB ∧
      (∀ d ∈ files, d ∉ cleanOldBackups files maxB →
        ∀ r ∈ cleanOldBackups files maxB, d.mtime ≤ r.mtime)) := by
  have hndf : files.Nodup := hnd.of_map
  constructor
  · intro hle
    simp [cleanOldBackups, hle]
  · intro hgt
    have hif : ¬ files.length ≤ maxB := Nat.not_le_of_lt hgt
    have hres : cleanOldBackups files maxB
        = files.filter (fun f =>
            decide (f ∉ (sortByMtime files).take (files.length - maxB))) := by
      simp [cleanOldBackups, hif]
    set k := files.length - maxB with hk
    set toDel := (sortByMtime files).take k with htd
    set rest := (sortByMtime files).drop k with hrest
    have hsplit : toDel ++ rest = sortByMtime files := List.take_append_drop k _
    have hperm : List.Perm files (toDel ++ rest) := by
      rw [hsplit]; exact (sortByMtime_perm files).symm
    have hnd2 : (toDel ++ rest).Nodup := hperm.nodup hndf
    have hdisj : ∀ a ∈ rest, a ∉ toDel := by
      intro a ha hatd
      rcases List.nodup_append.mp hnd2 with ⟨_, _, hd⟩
      exact hd hatd ha
    have hnil : toDel.filter (fun f => decide (f ∉ toDel)) = [] := by
      rw [List.filter_eq_nil_iff]
      intro a ha
      simp only [decide_not, Bool.not_eq_true', decide_eq_false_iff_not, not_not]
      exact ha
    have hself : rest.filter (fun f => decide (f ∉ toDel)) = rest := by
      rw [List.filter_eq_self]
      intro a ha
      simpa using hdisj a ha
    have hfperm : List.Perm (cleanOldBackups files maxB) rest := by
      have h1 := hperm.filter (fun f => decide (f ∉ toDel))
      rw [List.filter_append, hnil, hself, List.nil_append] at h1
      rw [hres]
      exact h1
    have hklen : k ≤ (sortByMtime files).length := by
      rw [(sortByMtime_perm files).length_eq]; omega
    constructor
    · rw [hfperm.length_eq, hrest, List.length_drop, (sortByMtime_perm files).length_eq]
      omega
    · intro d hd hdnot r hr
      have hdel : d ∈ toDel := by
        by_contra hno
        exact hdnot (by
          rw [hres]
          exact List.mem_filter.mpr ⟨hd, by simpa using hno⟩)
      have hrrest : r ∈ rest := hfperm.mem_iff.mp hr
      have hpw := sortByMtime_pairwise files
      rw [← hsplit] at hpw
      exact ((List.pairwise_append.mp hpw).2.2) d hdel r hrrest

/-- Witness for the C7 theorem: four backups with `max_backups = 3` leave
exactly the three newest; the oldest is the one deleted. -/
theorem cleanOldBackups_keeps_newest_max_witness :
    (([⟨"b1", 10⟩, ⟨"b2", 20⟩, ⟨"b3", 30⟩, ⟨"b4", 40⟩] :
        List BackupFile).map BackupFile.name).Nodup ∧
    (3 < 4 ∧
     ((cleanOldBackups [⟨"b1", 10⟩, ⟨"b2", 20⟩, ⟨"b3", 30⟩, ⟨"b4", 40⟩] 3).length = 3 ∧
      (∀ d ∈ ([⟨"b1", 10⟩, ⟨"b2", 20⟩, ⟨"b3", 30⟩, ⟨"b4", 40⟩] : List BackupFile),
        d ∉ cleanOldBackups [⟨"b1", 10⟩, ⟨"b2", 20⟩, ⟨"b3", 30⟩, ⟨"b4", 40⟩] 3 →
        ∀ r ∈ cleanOldBackups [⟨"b1", 10⟩, ⟨"b2", 20⟩, ⟨"b3", 30⟩, ⟨"b4", 40⟩] 3,
          d.mtime ≤ r.mtime))) ∧
    cleanOldBackups [⟨"b1", 10⟩, ⟨"b2", 20⟩, ⟨"b3", 30⟩, ⟨"b4", 40⟩] 3
      = [⟨"b2", 20⟩, ⟨"b3", 30⟩, ⟨"b4", 40⟩] :=
  ⟨by decide,
   ⟨by decide,
    (cleanOldBackups_keeps_newest_max
      [⟨"b1", 10⟩, ⟨"b2", 20⟩, ⟨"b3", 30⟩, ⟨"b4", 40⟩] 3 (by decide)).2 (by decide)⟩,
   by decide⟩

/-! ## Lemmas toward the eviction/bound claim -/

theorem lookupKey_isSome_of_mem {α : Type} {l : List (String × CacheEntry α)}
    {k : String} {e : CacheEntry α} (h : (k, e) ∈ l) :
    ∃ e', lookupKey l k = some e' := by
  induction l with
  | nil => simp at h
  | cons p rest ih =>
    by_cases hp : p.1 = k
    · exact ⟨p.2, by simp [lookupKey, hp]⟩
    · rcases List.mem_cons.mp h with h | h
      · exact absurd (congrArg Prod.fst h.symm) hp
      · rcases ih h with ⟨e', he'⟩
        exact ⟨e', by simp [lookupKey, hp, he']⟩

theorem not_mem_keys_of_lookupKey_none {α : Type} {l : List (String × CacheEntry α)}
    {k : String} (h : lookupKey l k = none) : k ∉ l.map Prod.fst := by
  intro hmem
  rcases List.mem_map.mp hmem with ⟨p, hp, hfst⟩
  rcases lookupKey_isSome_of_mem (l := l) (k := k) (e := p.2)
    (by cases p with | mk a b => simp only [] at hfst; rwa [hfst] at hp) with ⟨e', he'⟩
  rw [h] at he'
  exact Option.noConfusion he'

theorem mem_setKey {α : Type} {l : List (String × CacheEntry α)} {k : String}
    {e : CacheEntry α} {p : String × CacheEntry α} (h : p ∈ setKey l k e) :
    p ∈ l ∨ p = (k, e) := by
  induction l with
  | nil => simpa [setKey] using h
  | cons q rest ih =>
    by_cases hq : q.1 = k
    · simp only [setKey, hq, if_true] at h
      rcases List.mem_cons.mp h with h | h
      · exact Or.inr h
      · exact Or.inl (List.mem_cons_of_mem _ h)
    · simp only [setKey, hq, if_false] at h
      rcases List.mem_cons.mp h with h | h
      · exact Or.inl (h ▸ List.mem_cons_self _ _)
      · rcases ih h with h | h
        · exact Or.inl (List.mem_cons_of_mem _ h)
        · exact Or.inr h

theorem setKey_map_fst_of_lookup_some {α : Type} {l : List (String × CacheEntry α)}
    {k : String} {e₀ : CacheEntry α} (h : lookupKey l k = some e₀)
    (e : CacheEntry α) : (setKey l k e).map Prod.fst = l.map Prod.fst := by
  induction l with
  | nil => simp [lookupKey] at h
  | cons p rest ih =>
    by_cases hp : p.1 = k
    · simp [setKey, hp]
    · simp only [lookupKey, hp, if_false] at h
      simp [setKey, hp, ih h]

theorem setKey_length_of_lookup_some {α : Type} {l : List (String × CacheEntry α)}
    {k : String} {e₀ : CacheEntry α} (h : lookupKey l k = some e₀)
    (e : CacheEntry α) : (setKey l k e).length = l.length := by
  have := setKey_map_fst_of_lookup_some h e
  have h1 : (setKey l k e).length = ((setKey l k e).map Prod.fst).length := by
    rw [List.length_map]
  rw [h1, this, List.length_map]

theorem removeKey_sublist {α : Type} (l : List (String × CacheEntry α)) (k : String) :
    (removeKey l k).Sublist l := List.filter_sublist l

theorem removeKey_length_of_mem {α : Type} {l : List (String × CacheEntry α)}
    {k : String} {e : CacheEntry α} (hnd : (l.map Prod.fst).Nodup)
    (hmem : (k, e) ∈ l) : (removeKey l k).length + 1 = l.length := by
  induction l with
  | nil => simp at hmem
  | cons p rest ih =>
    simp only [List.map_cons, List.nodup_cons] at hnd
    by_cases hp : p.1 = k
    · have hknotin : k ∉ rest.map Prod.fst := by rw [← hp]; exact hnd.1
      have hrest : removeKey rest k = rest := by
        apply List.filter_eq_self.mpr
        intro a ha
        simp only [decide_eq_true_eq]
        intro hak
        exact hknotin (List.mem_map.mpr ⟨a, ha, hak⟩)
      have hhead : removeKey (p :: rest) k = removeKey rest k := by
        simp [removeKey, List.filter_cons, hp]
      rw [hhead, hrest]
      simp
    · have hmem' : (k, e) ∈ rest := by
        rcases List.mem_cons.mp hmem with h | h
        · exact absurd (congrArg Prod.fst h.symm) hp
        · exact h
      have hhead : removeKey (p :: rest) k = p :: removeKey rest k := by
        simp [removeKey, List.filter_cons, hp]
      have hih := ih hnd.2 hmem'
      rw [hhead]
      simp only [List.length_cons]
      omega

/-- Invariant of the running pair of the `_evict_oldest` scan loop. -/
theorem scanOldest_spec {α : Type} (l : List (String × CacheEntry α))
    (best : Option String) (t : Time) :
    (scanOldest l best t).2 ≤ t ∧
    (∀ p ∈ l, (scanOldest l best t).2 ≤ p.2.last_accessed) ∧
    (scanOldest l best t = (best, t) ∨
      ∃ p ∈ l, (scanOldest l best t).1 = some p.1 ∧
        (scanOldest l best t).2 = p.2.last_accessed) := by
  induction l generalizing best t with
  | nil => exact ⟨Nat.le_refl _, by simp, Or.inl rfl⟩
  | cons p rest ih =>
    by_cases h : p.2.last_accessed < t
    · simp only [scanOldest, h, if_true]
      rcases ih (some p.1) p.2.last_accessed with ⟨h1, h2, h3⟩
      refine ⟨Nat.le_trans h1 (Nat.le_of_lt h), ?_, ?_⟩
      · intro q hq
        rcases List.mem_cons.mp hq with hq | hq
        · exact hq ▸ h1
        · exact h2 q hq
      · rcases h3 with h3 | ⟨q, hq, hres⟩
        · exact Or.inr ⟨p, List.mem_cons_self _ _, by rw [h3], by rw [h3]⟩
        · exact Or.inr ⟨q, List.mem_cons_of_mem _ hq, hres⟩
    · simp only [scanOldest, h, if_false]
      rcases ih best t with ⟨h1, h2, h3⟩
      refine ⟨h1, ?_, ?_⟩
      · intro q hq
        rcases List.mem_cons.mp hq with hq | hq
        · exact hq ▸ Nat.le_trans h1 (Nat.le_of_not_lt h)
        · exact h2 q hq
      · rcases h3 with h3 | ⟨q, hq, hres⟩
        · exact Or.inl h3
        · exact Or.inr ⟨q, List.mem_cons_of_mem _ hq, hres⟩

/-- When every entry was last accessed strictly before `now`, the scan
finds a victim: an entry of minimal `last_accessed`. -/
theorem scanOldest_finds_victim {α : Type} {l : List (String × CacheEntry α)}
    {now : Time} (hne : l ≠ [])
    (htb : ∀ p ∈ l, p.2.last_accessed < now) :
    ∃ p ∈ l, (scanOldest l none now).1 = some p.1 ∧
      ∀ q ∈ l, p.2.last_accessed ≤ q.2.last_accessed := by
  rcases scanOldest_spec l none now with ⟨_, h2, h3⟩
  rcases h3 with h3 | ⟨p, hp, hres, htime⟩
  · cases l with
    | nil => exact absurd rfl hne
    | cons p rest =>
      have hlt := htb p (List.mem_cons_self _ _)
      have hle := h2 p (List.mem_cons_self _ _)
      rw [h3] at hle
      have hle2 : now ≤ p.2.last_accessed := hle
      exact absurd hle2 (Nat.not_le_of_lt hlt)
  · refine ⟨p, hp, hres, ?_⟩
    intro q hq
    have hle := h2 q hq
    rw [htime] at hle
    exact hle

/-- Under an advancing clock and non-empty keys, `_evict_oldest` deletes a
least-recently-accessed entry. -/
theorem evictOldest_eq {α : Type} {c : SmartCache α} {now : Time}
    (hne : c.cache ≠ [])
    (htb : ∀ p ∈ c.cache, p.2.last_accessed < now)
    (hkeys : ∀ p ∈ c.cache, p.1 ≠ "") :
    ∃ vk ve, (vk, ve) ∈ c.cache ∧
      (∀ q ∈ c.cache, ve.last_accessed ≤ q.2.last_accessed) ∧
      c.evictOldest now = ⟨removeKey c.cache vk, c.max_size,
        ⟨c.stats.hits, c.stats.misses, c.stats.evictions + 1,
         c.stats.expirations, (removeKey c.cache vk).length⟩⟩ := by
  have hie : c.cache.isEmpty = false := by
    cases hc : c.cache with
    | nil => exact absurd hc hne
    | cons a as => rfl
  rcases scanOldest_finds_victim hne htb with ⟨p, hp, hres, hmin⟩
  refine ⟨p.1, p.2, hp, hmin, ?_⟩
  simp only [SmartCache.evictOldest, hie, Bool.false_eq_true, if_false, hres]
  rw [if_neg (hkeys p hp)]

/-- The capacity path of `SmartCache.set`: at `max_size` with a fresh
non-empty key, exactly the (first) least-recently-accessed entry is
removed and the new entry appended, leaving the size at `max_size`. -/
theorem set_at_capacity {α : Type} (c : SmartCache α) (now : Time) (key : String)
    (v : α) (ttl : Nat) (tags : List String)
    (hmax : 1 ≤ c.max_size) (hfull : c.cache.length = c.max_size)
    (hnew : lookupKey c.cache key = none)
    (htb : ∀ p ∈ c.cache, p.2.last_accessed < now)
    (hkeys : ∀ p ∈ c.cache, p.1 ≠ "")
    (hnd : (c.cache.map Prod.fst).Nodup) :
    ∃ vk ve, (vk, ve) ∈ c.cache ∧
      (∀ q ∈ c.cache, ve.last_accessed ≤ q.2.last_accessed) ∧
      (c.set now key v ttl tags).cache
        = removeKey c.cache vk ++ [(key, ⟨key, v, now, ttl, 0, now, addTags tags⟩)] ∧
      (c.set now key v ttl tags).cache.length = c.max_size := by
  have hne : c.cache ≠ [] := by
    intro h
    rw [h] at hfull
    simp only [List.length_nil] at hfull
    omega
  rcases evictOldest_eq hne htb hkeys with ⟨vk, ve, hmem, hmin, heq⟩
  have hcond : c.max_size ≤ c.cache.length ∧ (lookupKey c.cache key).isNone = true :=
    ⟨by omega, by simp [hnew]⟩
  have hset : (c.set now key v ttl tags).cache
      = setKey (c.evictOldest now).cache key ⟨key, v, now, ttl, 0, now, addTags tags⟩ := by
    simp only [SmartCache.set, if_pos hcond]
  rw [heq] at hset
  have hlook1 : lookupKey (removeKey c.cache vk) key = none :=
    lookupKey_filter_none _ _ _ hnew
  rw [setKey_of_lookup_none _ _ _ hlook1] at hset
  refine ⟨vk, ve, hmem, hmin, hset, ?_⟩
  rw [hset, List.length_append]
  have hrl := removeKey_length_of_mem hnd hmem
  simp only [List.length_cons, List.length_nil]
  omega

/-! ### Branch equations for the cache operations -/

theorem get_eq_none {α : Type} {c : SmartCache α} {now : Time} {key : String}
    {default : α} (hl : lookupKey c.cache key = none) :
    c.get now key default = (default, ⟨c.cache, c.max_size,
      ⟨c.stats.hits, c.stats.misses + 1, c.stats.evictions,
       c.stats.expirations, c.stats.size⟩⟩) := by
  simp only [SmartCache.get, hl]

theorem get_eq_expired {α : Type} {c : SmartCache α} {now : Time} {key : String}
    {default : α} {e : CacheEntry α} (hl : lookupKey c.cache key = some e)
    (hexp : e.is_expired now = true) :
    c.get now key default = (default, ⟨removeKey c.cache key, c.max_size,
      ⟨c.stats.hits, c.stats.misses + 1, c.stats.evictions,
       c.stats.expirations + 1, (removeKey c.cache key).length⟩⟩) := by
  simp only [SmartCache.get, hl, hexp, if_true]

theorem get_eq_live {α : Type} {c : SmartCache α} {now : Time} {key : String}
    {default : α} {e : CacheEntry α} (hl : lookupKey c.cache key = some e)
    (hexp : e.is_expired now = false) :
    c.get now key default = (e.value,
      ⟨setKey c.cache key
         { e with access_count := e.access_count + 1, last_accessed := now },
       c.max_size,
       ⟨c.stats.hits + 1, c.stats.misses, c.stats.evictions,
        c.stats.expirations, c.stats.size⟩⟩) := by
  simp only [SmartCache.get, hl, hexp, Bool.false_eq_true, if_false]

theorem set_eq_no_evict {α : Type} {c : SmartCache α} {now : Time} {key : String}
    {v : α} {ttl : Nat} {tags : List String}
    (h : ¬(c.max_size ≤ c.cache.length ∧ (lookupKey c.cache key).isNone = true)) :
    c.set now key v ttl tags
      = ⟨setKey c.cache key ⟨key, v, now, ttl, 0, now, addTags tags⟩, c.max_size,
         ⟨c.stats.hits, c.stats.misses, c.stats.evictions, c.stats.expirations,
          (setKey c.cache key ⟨key, v, now, ttl, 0, now, addTags tags⟩).length⟩⟩ := by
  simp only [SmartCache.set, if_neg h]

theorem foldl_removeKey_sublist {α : Type} (ks : List String)
    (l : List (String × CacheEntry α)) : (ks.foldl removeKey l).Sublist l := by
  rw [foldl_removeKey]
  exact List.filter_sublist l

theorem inv_parts_of_sublist {α : Type} {l l' : List (String × CacheEntry α)}
    {t t' : Time} (hsub : l'.Sublist l) (hle : t ≤ t')
    (htb : ∀ p ∈ l, p.2.last_accessed < t)
    (hkeys : ∀ p ∈ l, p.1 ≠ "")
    (hnd : (l.map Prod.fst).Nodup) :
    (∀ p ∈ l', p.2.last_accessed < t') ∧ (∀ p ∈ l', p.1 ≠ "") ∧
      (l'.map Prod.fst).Nodup :=
  ⟨fun p hp => Nat.lt_of_lt_of_le (htb p (hsub.subset hp)) hle,
   fun p hp => hkeys p (hsub.subset hp),
   hnd.sublist (hsub.map Prod.fst)⟩

theorem nodup_append_singleton {β : Type} {l : List β} {a : β}
    (h1 : l.Nodup) (h2 : a ∉ l) : (l ++ [a]).Nodup := by
  rw [List.nodup_append]
  exact ⟨h1, List.nodup_singleton a, fun x hx hxa => h2 (by
    rcases List.mem_singleton.mp hxa with rfl
    exact hx)⟩

theorem evictOldest_max_size {α : Type} (c : SmartCache α) (now : Time) :
    (c.evictOldest now).max_size = c.max_size := by
  simp only [SmartCache.evictOldest]
  split
  · rfl
  · split <;> try rfl
    split <;> rfl

theorem set_max_size {α : Type} (c : SmartCache α) (now : Time) (key : String)
    (v : α) (ttl : Nat) (tags : List String) :
    (c.set now key v ttl tags).max_size = c.max_size := by
  simp only [SmartCache.set]
  by_cases h : c.max_size ≤ c.cache.length ∧ (lookupKey c.cache key).isNone = true
  · rw [if_pos h]
    exact evictOldest_max_size c now
  · rw [if_neg h]

/-- One operation preserves the cache invariants and the size bound, under
its clock discipline. -/
theorem applyOp_preserves {α : Type} (c : SmartCache α) (op : CacheOp α) (t : Time)
    (hmax : 1 ≤ c.max_size) (hlen : c.cache.length ≤ c.max_size)
    (hinv : CacheInv c t) (hop : opOK t op) :
    (applyOp c op).max_size = c.max_size ∧
    (applyOp c op).cache.length ≤ c.max_size ∧
    CacheInv (applyOp c op) (opNext t op) := by
  obtain ⟨htb, hkeys, hnd⟩ := hinv
  cases op with
  | get now key default =>
    have hle : t ≤ now := hop
    simp only [applyOp, opNext]
    cases hl : lookupKey c.cache key with
    | none =>
      rw [get_eq_none hl]
      exact ⟨rfl, hlen,
        fun p hp => Nat.lt_of_lt_of_le (htb p hp) (Nat.le_succ_of_le hle),
        hkeys, hnd⟩
    | some e =>
      by_cases hexp : e.is_expired now
      · rw [get_eq_expired hl hexp]
        rcases inv_parts_of_sublist (removeKey_sublist c.cache key)
          (Nat.le_succ_of_le hle) htb hkeys hnd with ⟨h1, h2, h3⟩
        exact ⟨rfl,
          Nat.le_trans ((removeKey_sublist c.cache key).length_le) hlen,
          h1, h2, h3⟩
      · rw [get_eq_live hl (by simpa using hexp)]
        have hke : (key, e) ∈ c.cache := mem_of_lookupKey_some hl
        refine ⟨rfl, ?_, ?_, ?_, ?_⟩
        · rw [setKey_length_of_lookup_some hl]
          exact hlen
        · intro p hp
          rcases mem_setKey hp with hp | hp
          · exact Nat.lt_of_lt_of_le (htb p hp) (Nat.le_succ_of_le hle)
          · rw [hp]
            exact Nat.lt_succ_self now
        · intro p hp
          rcases mem_setKey hp with hp | hp
          · exact hkeys p hp
          · rw [hp]
            exact hkeys (key, e) hke
        · rw [setKey_map_fst_of_lookup_some hl]
          exact hnd
  | set now key v ttl tags =>
    obtain ⟨hle, hkey⟩ := hop
    simp only [applyOp, opNext]
    have hms := set_max_size c now key v ttl tags
    by_cases hcond : c.max_size ≤ c.cache.length ∧ (lookupKey c.cache key).isNone = true
    · have hfull : c.cache.length = c.max_size := Nat.le_antisymm hlen hcond.1
      have hnone : lookupKey c.cache key = none :=
        Option.isNone_iff_eq_none.mp hcond.2
      have htbn : ∀ p ∈ c.cache, p.2.last_accessed < now :=
        fun p hp => Nat.lt_of_lt_of_le (htb p hp) hle
      rcases set_at_capacity c now key v ttl tags hmax hfull hnone htbn hkeys hnd with
        ⟨vk, ve, hmem, _, hcache, hlength⟩
      refine ⟨hms, le_of_eq hlength, ?_, ?_, ?_⟩
      · intro p hp
        rw [hcache] at hp
        rcases List.mem_append.mp hp with hp | hp
        · exact Nat.lt_succ_of_lt (htbn p (List.mem_of_mem_filter hp))
        · rcases List.mem_singleton.mp hp with rfl
          exact Nat.lt_succ_self now
      · intro p hp
        rw [hcache] at hp
        rcases List.mem_append.mp hp with hp | hp
        · exact hkeys p (List.mem_of_mem_filter hp)
        · rcases List.mem_singleton.mp hp with rfl
          exact hkey
      · rw [hcache, List.map_append]
        simp only [List.map_cons, List.map_nil]
        apply nodup_append_singleton
        · exact hnd.sublist ((removeKey_sublist c.cache vk).map Prod.fst)
        · intro hm
          exact not_mem_keys_of_lookupKey_none hnone
            (((removeKey_sublist c.cache vk).map Prod.fst).subset hm)
    · rw [set_eq_no_evict hcond]
      cases hlk : lookupKey c.cache key with
      | some e =>
        refine ⟨rfl, ?_, ?_, ?_, ?_⟩
        · rw [setKey_length_of_lookup_some hlk]
          exact hlen
        · intro p hp
          rcases mem_setKey hp with hp | hp
          · exact Nat.lt_succ_of_lt (Nat.lt_of_lt_of_le (htb p hp) hle)
          · rw [hp]
            exact Nat.lt_succ_self now
        · intro p hp
          rcases mem_setKey hp with hp | hp
          · exact hkeys p hp
          · rw [hp]
            exact hkey
        · rw [setKey_map_fst_of_lookup_some hlk]
          exact hnd
      | none =>
        have hlt : c.cache.length < c.max_size := by
          by_contra hge
          exact hcond ⟨Nat.le_of_not_lt hge, by simp [hlk]⟩
        rw [setKey_of_lookup_none _ _ _ hlk]
        refine ⟨rfl, ?_, ?_, ?_, ?_⟩
        · rw [List.length_append]
          simp only [List.length_cons, List.length_nil]
          omega
        · intro p hp
          rcases List.mem_append.mp hp with hp | hp
          · exact Nat.lt_succ_of_lt (Nat.lt_of_lt_of_le (htb p hp) hle)
          · rcases List.mem_singleton.mp hp with rfl
            exact Nat.lt_succ_self now
        · intro p hp
          rcases List.mem_append.mp hp with hp | hp
          · exact hkeys p hp
          · rcases List.mem_singleton.mp hp with rfl
            exact hkey
        · rw [List.map_append]
          simp only [List.map_cons, List.map_nil]
          exact nodup_append_singleton hnd (not_mem_keys_of_lookupKey_none hlk)
  | invalidate key =>
    simp only [applyOp, opNext]
    cases hl : lookupKey c.cache key with
    | none =>
      simp only [SmartCache.invalidate, hl]
      exact ⟨trivial, hlen, htb, hkeys, hnd⟩
    | some e =>
      simp only [SmartCache.invalidate, hl]
      rcases inv_parts_of_sublist (removeKey_sublist c.cache key) (Nat.le_refl t)
        htb hkeys hnd with ⟨h1, h2, h3⟩
      exact ⟨trivial, Nat.le_trans (removeKey_sublist c.cache key).length_le hlen,
        h1, h2, h3⟩
  | invalidateByTag tag =>
    simp only [applyOp, opNext, SmartCache.invalidateByTag]
    rcases inv_parts_of_sublist (foldl_removeKey_sublist _ c.cache) (Nat.le_refl t)
      htb hkeys hnd with ⟨h1, h2, h3⟩
    exact ⟨trivial, Nat.le_trans (foldl_removeKey_sublist _ c.cache).length_le hlen,
      h1, h2, h3⟩
  | invalidateByGlob m =>
    simp only [applyOp, opNext, SmartCache.invalidateByGlob]
    rcases inv_parts_of_sublist (foldl_removeKey_sublist _ c.cache) (Nat.le_refl t)
      htb hkeys hnd with ⟨h1, h2, h3⟩
    exact ⟨trivial, Nat.le_trans (foldl_removeKey_sublist _ c.cache).length_le hlen,
      h1, h2, h3⟩
  | cleanupExpired now =>
    have hle : t ≤ now := hop
    simp only [applyOp, opNext, SmartCache.cleanupExpired]
    rcases inv_parts_of_sublist (foldl_removeKey_sublist _ c.cache)
      (Nat.le_succ_of_le hle) htb hkeys hnd with ⟨h1, h2, h3⟩
    exact ⟨trivial, Nat.le_trans (foldl_removeKey_sublist _ c.cache).length_le hlen,
      h1, h2, h3⟩
  | clear =>
    simp only [applyOp, opNext, SmartCache.clear]
    exact ⟨trivial, Nat.zero_le _,
      fun p hp => absurd hp (List.not_mem_nil p),
      fun p hp => absurd hp (List.not_mem_nil p),
      List.nodup_nil⟩

/-- A well-clocked operation sequence preserves `max_size` and the size
bound. -/
theorem runOps_preserves {α : Type} (c : SmartCache α) (ops : List (CacheOp α))
    (t : Time) (hmax : 1 ≤ c.max_size) (hlen : c.cache.length ≤ c.max_size)
    (hinv : CacheInv c t) (hval : ValidOps t ops) :
    (runOps c ops).max_size = c.max_size ∧
    (runOps c ops).cache.length ≤ c.max_size := by
  induction ops generalizing c t with
  | nil => exact ⟨rfl, hlen⟩
  | cons op ops ih =>
    cases hval with
    | cons hop hval' =>
      rcases applyOp_preserves c op t hmax hlen hinv hop with ⟨hms, hlen', hinv'⟩
      have hmax' : 1 ≤ (applyOp c op).max_size := by rw [hms]; exact hmax
      have hlen'' : (applyOp c op).cache.length ≤ (applyOp c op).max_size := by
        rw [hms]; exact hlen'
      rcases ih (applyOp c op) (opNext t op) hmax' hlen'' hinv' hval' with ⟨h1, h2⟩
      constructor
      · simp only [runOps, List.foldl_cons] at *
        rw [h1, hms]
      · simp only [runOps, List.foldl_cons] at *
        rw [hms] at h2
        exact h2

/-- **C4, counterexample**: `_evict_oldest` ends with `if oldest_key:`,
Python truthiness, which is falsy for the empty-string key.  Starting from
an empty cache with `max_size = 1`, `set("", 7)` then `set("x", 8)` skips
the eviction (the selected victim key `""` is falsy) and inserts anyway:
the cache reaches 2 entries with no entry evicted, exceeding `max_size`. -/
theorem set_at_capacity_can_exceed_max_size :
    (((SmartCache.empty Nat 1).set 0 "" 7 300 []).cache.length = 1) ∧
    ((((SmartCache.empty Nat 1).set 0 "" 7 300 []).set 1 "x" 8 300
        []).cache.length = 2) ∧
    (((SmartCache.empty Nat 1).set 0 "" 7 300 []).set 1 "x" 8 300
        []).max_size = 1 := by
  decide

/-- **C4, amended** (`SmartCache.set` / `_evict_oldest`): provided every
key is a non-empty string and the clock advances past every recorded
`last_accessed` — both automatic in normal use — a `set` of a new key on a
cache at `max_size` removes exactly one entry, one of minimal
`last_accessed`, appends the new entry, and leaves the size at `max_size`;
and along every well-clocked operation sequence the entry count never
exceeds `max_size`. -/
theorem set_eviction_and_size_bound {α : Type} :
    (∀ (c : SmartCache α) (now : Time) (key : String) (v : α) (ttl : Nat)
       (tags : List String),
       1 ≤ c.max_size → c.cache.length = c.max_size →
       lookupKey c.cache key = none →
       (∀ p ∈ c.cache, p.2.last_accessed < now) →
       (∀ p ∈ c.cache, p.1 ≠ "") →
       (c.cache.map Prod.fst).Nodup →
       ∃ vk ve, (vk, ve) ∈ c.cache ∧
         (∀ q ∈ c.cache, ve.last_accessed ≤ q.2.last_accessed) ∧
         (c.set now key v ttl tags).cache
           = removeKey c.cache vk
             ++ [(key, ⟨key, v, now, ttl, 0, now, addTags tags⟩)] ∧
         (c.set now key v ttl tags).cache.length = c.max_size) ∧
    (∀ (c : SmartCache α) (t : Time) (ops : List (CacheOp α)),
       1 ≤ c.max_size → c.cache.length ≤ c.max_size → CacheInv c t →
       ValidOps t ops → (runOps c ops).cache.length ≤ c.max_size) :=
  ⟨fun c now key v ttl tags h1 h2 h3 h4 h5 h6 =>
     set_at_capacity c now key v ttl tags h1 h2 h3 h4 h5 h6,
   fun c t ops h1 h2 h3 h4 => (runOps_preserves c ops t h1 h2 h3 h4).2⟩

/-- Witness for the amended C4 theorem: the spec's own example scenario
(`max_size = 2`; set "a", set "b", hit "a", set "c") stays within bound,
and a concrete full cache evicts down to `max_size` on `set`. -/
theorem set_eviction_and_size_bound_witness :
    ((SmartCache.mk
        [("a", CacheEntry.mk "a" 1 0 300 0 0 []),
         ("b", CacheEntry.mk "b" 2 0 300 0 5 [])] 2 ⟨0, 0, 0, 0, 2⟩).set
          10 "c" 3 300 []).cache.length = 2 ∧
    (runOps (SmartCache.empty Nat 2)
      [CacheOp.set 0 "a" 1 300 [], CacheOp.set 1 "b" 2 300 [],
       CacheOp.get 2 "a" 0, CacheOp.set 3 "c" 3 300 []]).cache.length ≤ 2 := by
  constructor
  · rcases (set_eviction_and_size_bound (α := Nat)).1
      (SmartCache.mk
        [("a", CacheEntry.mk "a" 1 0 300 0 0 []),
         ("b", CacheEntry.mk "b" 2 0 300 0 5 [])] 2 ⟨0, 0, 0, 0, 2⟩)
      10 "c" 3 300 [] (by decide) (by decide) (by decide) (by decide)
      (by decide) (by decide) with ⟨vk, ve, _, _, _, hlen⟩
    exact hlen
  · apply (set_eviction_and_size_bound (α := Nat)).2 (SmartCache.empty Nat 2) 0
    · decide
    · decide
    · exact ⟨fun p hp => absurd hp (List.not_mem_nil p),
        fun p hp => absurd hp (List.not_mem_nil p), List.nodup_nil⟩
    · refine ValidOps.cons ⟨by decide, by decide⟩
        (ValidOps.cons ⟨by decide, by decide⟩
          (ValidOps.cons (show 2 ≤ 2 by decide)
            (ValidOps.cons ⟨by decide, by decide⟩ ValidOps.nil)))

/-! ## Hit-rate accounting (`SmartCache.get_stats`) -/

theorem evictOldest_hits_misses {α : Type} (c : SmartCache α) (now : Time) :
    (c.evictOldest now).stats.hits = c.stats.hits ∧
    (c.evictOldest now).stats.misses = c.stats.misses := by
  simp only [SmartCache.evictOldest]
  split
  · exact ⟨rfl, rfl⟩
  · split <;> try exact ⟨rfl, rfl⟩
    split <;> exact ⟨rfl, rfl⟩

theorem set_hits_misses {α : Type} (c : SmartCache α) (now : Time) (key : String)
    (v : α) (ttl : Nat) (tags : List String) :
    (c.set now key v ttl tags).stats.hits = c.stats.hits ∧
    (c.set now key v ttl tags).stats.misses = c.stats.misses := by
  simp only [SmartCache.set]
  split
  · exact evictOldest_hits_misses c now
  · exact ⟨rfl, rfl⟩

/-- Each operation adds exactly one access (hit or miss) to the counters
when it is a `get`, and leaves `hits + misses` unchanged otherwise. -/
theorem applyOp_hits_misses {α : Type} (c : SmartCache α) (op : CacheOp α) :
    (applyOp c op).stats.hits + (applyOp c op).stats.misses
      = c.stats.hits + c.stats.misses + (if op.isGet then 1 else 0) := by
  cases op with
  | get now key default =>
    simp only [applyOp, CacheOp.isGet, if_true]
    cases hl : lookupKey c.cache key with
    | none =>
      rw [get_eq_none hl]
      dsimp only
      omega
    | some e =>
      by_cases hexp : e.is_expired now
      · rw [get_eq_expired hl hexp]
        dsimp only
        omega
      · rw [get_eq_live hl (by simpa using hexp)]
        dsimp only
        omega
  | set now key v ttl tags =>
    simp only [applyOp, CacheOp.isGet, Bool.false_eq_true, if_false]
    rcases set_hits_misses c now key v ttl tags with ⟨h1, h2⟩
    omega
  | invalidate key =>
    simp only [applyOp, CacheOp.isGet, if_false, SmartCache.invalidate]
    cases hl : lookupKey c.cache key with
    | none => simp
    | some e => simp
  | invalidateByTag tag =>
    simp only [applyOp, CacheOp.isGet, if_false, SmartCache.invalidateByTag]
    simp
  | invalidateByGlob m =>
    simp only [applyOp, CacheOp.isGet, if_false, SmartCache.invalidateByGlob]
    simp
  | cleanupExpired now =>
    simp only [applyOp, CacheOp.isGet, if_false, SmartCache.cleanupExpired]
    simp
  | clear =>
    simp only [applyOp, CacheOp.isGet, if_false, SmartCache.clear]
    simp

theorem runOps_hits_misses {α : Type} (c : SmartCache α) (ops : List (CacheOp α)) :
    (runOps c ops).stats.hits + (runOps c ops).stats.misses
      = c.stats.hits + c.stats.misses + countGets ops := by
  induction ops generalizing c with
  | nil => simp [runOps, countGets]
  | cons op ops ih =>
    have hstep := applyOp_hits_misses c op
    have hrec := ih (applyOp c op)
    have hc : countGets (op :: ops) = countGets ops + (if op.isGet then 1 else 0) := by
      by_cases h : op.isGet <;> simp [countGets, List.filter_cons, h]
    simp only [runOps, List.foldl_cons] at hrec ⊢
    rw [hrec, hstep, hc]
    by_cases h : op.isGet <;> simp [h] <;> omega

theorem hitRateQ_eq_of_pos (s : CacheStats) (hpos : 0 < s.hits + s.misses) :
    hitRateQ s = (s.hits : ℚ) / (((s.hits + s.misses : Nat)) : ℚ) * 100 := by
  simp only [hitRateQ, if_pos hpos]
  push_cast
  ring

theorem lt_hitRateQ_iff (s : CacheStats) (hpos : 0 < s.hits + s.misses) (q : ℚ) :
    q < hitRateQ s ↔ q * ((s.hits : ℚ) + (s.misses : ℚ)) < (s.hits : ℚ) * 100 := by
  have hT : (0 : ℚ) < (s.hits : ℚ) + (s.misses : ℚ) := by
    have h0 : (0 : ℚ) < ((s.hits + s.misses : Nat) : ℚ) := by exact_mod_cast hpos
    push_cast at h0
    exact h0
  simp only [hitRateQ, if_pos hpos]
  rw [div_mul_eq_mul_div, lt_div_iff hT]

theorem efficiencyLabel_alta_iff (s : CacheStats) :
    efficiencyLabel s = "alta" ↔ 80 < hitRateQ s := by
  constructor
  · intro h
    by_contra h80
    simp only [efficiencyLabel, if_neg h80] at h
    by_cases h50 : (50 : ℚ) < hitRateQ s
    · rw [if_pos h50] at h
      exact absurd h (by decide)
    · rw [if_neg h50] at h
      exact absurd h (by decide)
  · intro h80
    simp only [efficiencyLabel, if_pos h80]

theorem efficiencyLabel_media_iff (s : CacheStats) :
    efficiencyLabel s = "media" ↔ (¬ 80 < hitRateQ s ∧ 50 < hitRateQ s) := by
  constructor
  · intro h
    by_cases h80 : (80 : ℚ) < hitRateQ s
    · simp only [efficiencyLabel, if_pos h80] at h
      exact absurd h (by decide)
    · by_cases h50 : (50 : ℚ) < hitRateQ s
      · exact ⟨h80, h50⟩
      · simp only [efficiencyLabel, if_neg h80, if_neg h50] at h
        exact absurd h (by decide)
  · rintro ⟨h80, h50⟩
    simp only [efficiencyLabel, if_neg h80, if_pos h50]

/-- **C9** (`SmartCache.get_stats`): along any operation sequence from a
fresh cache, `hits + misses` equals the number of `get`s performed; the
computed hit rate is 0 when no get has occurred and equals
`hits / (hits+misses) * 100` otherwise; the efficiency label is the
three-tier value (`"alta"` above 80%, `"media"` above 50%, else
`"baja"`), characterized here by the equivalent integer comparisons. -/
theorem get_stats_hit_rate {α : Type} (mx : Nat) (ops : List (CacheOp α)) :
    ((runOps (SmartCache.empty α mx) ops).stats.hits
       + (runOps (SmartCache.empty α mx) ops).stats.misses = countGets ops) ∧
    (countGets ops = 0 →
      hitRateQ (runOps (SmartCache.empty α mx) ops).stats = 0) ∧
    (0 < countGets ops →
      hitRateQ (runOps (SmartCache.empty α mx) ops).stats
        = ((runOps (SmartCache.empty α mx) ops).stats.hits : ℚ)
          / (countGets ops : ℚ) * 100) ∧
    (0 < countGets ops →
      ((efficiencyLabel (runOps (SmartCache.empty α mx) ops).stats = "alta"
          ↔ 80 * countGets ops
            < (runOps (SmartCache.empty α mx) ops).stats.hits * 100) ∧
       (efficiencyLabel (runOps (SmartCache.empty α mx) ops).stats = "media"
          ↔ ¬ 80 * countGets ops
              < (runOps (SmartCache.empty α mx) ops).stats.hits * 100
            ∧ 50 * countGets ops
              < (runOps (SmartCache.empty α mx) ops).stats.hits * 100))) := by
  have hsum : (runOps (SmartCache.empty α mx) ops).stats.hits
      + (runOps (SmartCache.empty α mx) ops).stats.misses = countGets ops := by
    have h := runOps_hits_misses (SmartCache.empty α mx) ops
    simpa [SmartCache.empty] using h
  have hcast : ((runOps (SmartCache.empty α mx) ops).stats.hits : ℚ)
      + ((runOps (SmartCache.empty α mx) ops).stats.misses : ℚ)
      = (countGets ops : ℚ) := by
    have h := congrArg (fun n : Nat => (n : ℚ)) hsum
    push_cast at h
    exact h
  refine ⟨hsum, ?_, ?_, ?_⟩
  · intro h0
    have hz : ¬ 0 < (runOps (SmartCache.empty α mx) ops).stats.hits
        + (runOps (SmartCache.empty α mx) ops).stats.misses := by omega
    simp only [hitRateQ, if_neg hz]
  · intro hpos
    have hp2 : 0 < (runOps (SmartCache.empty α mx) ops).stats.hits
        + (runOps (SmartCache.empty α mx) ops).stats.misses := by omega
    rw [hitRateQ_eq_of_pos _ hp2, hsum]
  · intro hpos
    have hp2 : 0 < (runOps (SmartCache.empty α mx) ops).stats.hits
        + (runOps (SmartCache.empty α mx) ops).stats.misses := by omega
    constructor
    · rw [efficiencyLabel_alta_iff, lt_hitRateQ_iff _ hp2, hcast]
      constructor
      · intro h
        exact_mod_cast h
      · intro h
        exact_mod_cast h
    · rw [efficiencyLabel_media_iff, lt_hitRateQ_iff _ hp2,
        lt_hitRateQ_iff _ hp2, hcast]
      constructor
      · rintro ⟨h1, h2⟩
        exact ⟨fun hx => h1 (by exact_mod_cast hx), by exact_mod_cast h2⟩
      · rintro ⟨h1, h2⟩
        exact ⟨fun hx => h1 (by exact_mod_cast hx), by exact_mod_cast h2⟩

/-- Witness for the C9 theorem: a miss, a set, then a hit give a 50% hit
rate over 2 gets; an empty sequence reports rate 0. -/
theorem get_stats_hit_rate_witness :
    (0 < countGets
      [CacheOp.get 0 "k" 0, CacheOp.set 1 "k" 7 300 [], CacheOp.get 2 "k" 0] ∧
     hitRateQ (runOps (SmartCache.empty Nat 5)
        [CacheOp.get 0 "k" 0, CacheOp.set 1 "k" 7 300 [],
         CacheOp.get 2 "k" 0]).stats
        = ((runOps (SmartCache.empty Nat 5)
            [CacheOp.get 0 "k" 0, CacheOp.set 1 "k" 7 300 [],
             CacheOp.get 2 "k" 0]).stats.hits : ℚ)
          / ((countGets
              [CacheOp.get 0 "k" 0, CacheOp.set 1 "k" 7 300 [],
               CacheOp.get 2 "k" 0] : Nat) : ℚ) * 100) ∧
    hitRateQ (runOps (SmartCache.empty Nat 5)
        ([] : List (CacheOp Nat))).stats = 0 :=
  ⟨⟨by decide,
    (get_stats_hit_rate 5
      [CacheOp.get 0 "k" 0, CacheOp.set 1 "k" 7 300 [],
       CacheOp.get 2 "k" 0]).2.2.1 (by decide)⟩,
   (get_stats_hit_rate 5 ([] : List (CacheOp Nat))).2.1 rfl⟩

end AeroSpec
